import Mathlib

/-
Verification development for the tier-mem repository (src/tier-mem.py).

The program is a linear text pipeline over the output of two remote
commands.  We model text as lists of characters (ASCII, which is the
alphabet the modelled commands emit): a line is a List Char and a block
of output is a List (List Char).  The Python dict built by
get_vm_mapping is modelled as an association list in insertion order,
with the Python dict update rule (overwriting a present key keeps its
position, a new key is appended), because the program iterates the dict
with items() and values(), both of which follow insertion order.
-/

/-- Conversion from a Lean string literal to the character-list
representation used throughout this development. -/
def toChars (s : String) : List Char := s.data

/-- Whitespace test for the ASCII characters recognised by the Python
str.strip method and the regex class backslash-s: space, tab, newline,
carriage return, vertical tab and form feed. -/
def pyIsSpace (c : Char) : Bool :=
  c.toNat = 32 || c.toNat = 9 || c.toNat = 10 || c.toNat = 13 ||
  c.toNat = 11 || c.toNat = 12

/-- Decimal digit test, the ASCII content of the regex class
backslash-d. -/
def pyIsDigit (c : Char) : Bool := 48 ≤ c.toNat && c.toNat ≤ 57

/-- Model of the Python str.strip method with no argument: remove
leading and trailing whitespace. -/
def strip (s : List Char) : List Char :=
  ((s.dropWhile pyIsSpace).reverse.dropWhile pyIsSpace).reverse

/-- Model of the Python split on a comma separator, str.split applied
to a one-comma string: empty fields are kept, and the empty string
splits to one empty field. -/
def splitComma : List Char → List (List Char)
  | [] => [[]]
  | c :: cs =>
    if c = ',' then [] :: splitComma cs
    else
      match splitComma cs with
      | [] => [[c]]
      | t :: ts => (c :: t) :: ts

/-- Association-list model of the Python dict from VM cartel id to VM
display name built by get_vm_mapping; pairs are (id, name) and appear
in insertion order. -/
abbrev VMMap := List (List Char × List Char)

/-- Model of a Python dict store: when the key is present its value is
overwritten in place, otherwise the pair is appended at the end.  This
is the semantics of the assignment on line 54 of tier-mem.py. -/
def dictInsert (m : VMMap) (k v : List Char) : VMMap :=
  if m.any (fun p => decide (p.1 = k)) then
    m.map (fun p => if p.1 = k then (k, v) else p)
  else m ++ [(k, v)]

/-- Lookup in the association-list model of the dict. -/
def dictGet : VMMap → List Char → Option (List Char)
  | [], _ => none
  | p :: m, k => if p.1 = k then some p.2 else dictGet m k

/-- Parsing of one process-listing line, tier-mem.py lines 50 to 54:
strip the line, split it on commas, and when at least five fields are
present return the pair (id, name) taken from stripped fields 4 and 1;
shorter lines contribute nothing. -/
def lineEntry (line : List Char) : Option (List Char × List Char) :=
  let parts := splitComma (strip line)
  if 5 ≤ parts.length then some (strip (parts.getD 4 []), strip (parts.getD 1 []))
  else none

/-- Loop body of get_vm_mapping, tier-mem.py lines 50 to 54: store the
parsed (id, name) pair of the line, when there is one, in the dict. -/
def vmStep (m : VMMap) (line : List Char) : VMMap :=
  match lineEntry line with
  | some kv => dictInsert m kv.1 kv.2
  | none => m

/-- Model of get_vm_mapping, tier-mem.py lines 41 to 56, restricted to
its pure part: the first output line is dropped unconditionally as a
header, and every remaining line with at least five comma-separated
fields stores name under id in the dict. -/
def get_vm_mapping (output : List (List Char)) : VMMap :=
  (output.drop 1).foldl vmStep []

/-- Boolean test that the first list is an initial segment of the
second, the scanning step of the Python str.replace method. -/
def isPre : List Char → List Char → Bool
  | [], _ => true
  | _ :: _, [] => false
  | a :: as, b :: bs => a = b && isPre as bs

/-- Boolean test that the pattern occurs as a contiguous substring of
the first argument. -/
def hasInfix : List Char → List Char → Bool
  | [], pat => pat.isEmpty
  | b :: bs, pat => isPre pat (b :: bs) || hasInfix bs pat

/-- Fuel-indexed model of the Python str.replace method for a nonempty
pattern: scan left to right, replace each leftmost occurrence and
resume after it.  The fuel only bounds the number of scanning steps;
since every step consumes at least one character of the scanned text
when the pattern is nonempty, fuel equal to the length of the text is
always sufficient (lemma replaceFuel_fuel_invariant below), so the
wrapper strReplace is an exact model on nonempty patterns, and the
program only ever replaces the nonempty patterns vm.id. -/
def replaceFuel (old new : List Char) : Nat → List Char → List Char
  | 0, s => s
  | _ + 1, [] => []
  | fuel + 1, c :: cs =>
    if isPre old (c :: cs) then new ++ replaceFuel old new fuel ((c :: cs).drop old.length)
    else c :: replaceFuel old new fuel cs

/-- Model of the Python str.replace method, tier-mem.py line 71. -/
def strReplace (s old new : List Char) : List Char :=
  replaceFuel old new s.length s

/-- Literal token vm.id searched by the substitution stage,
tier-mem.py line 71. -/
def vmToken (id : List Char) : List Char := 'v' :: 'm' :: '.' :: id

/-- Substitution loop of tier-mem.py lines 70 to 71: the (id, name)
pairs of the mapping are applied in dict iteration order, which is
insertion order, each one replacing every occurrence of the token
vm.id in the current line. -/
def applySubsts (m : VMMap) (line : List Char) : List Char :=
  m.foldl (fun acc p => strReplace acc (vmToken p.1) p.2) line

/-- Model of the loop body of retrieve_memory_stats for one line,
tier-mem.py lines 68 to 72: apply all substitutions, then strip the
line. -/
def substituteLine (m : VMMap) (line : List Char) : List Char :=
  strip (applySubsts m line)

/-- Model of retrieve_memory_stats, tier-mem.py lines 58 to 74,
restricted to its pure part: map the substitute-and-strip body over
the raw stats lines. -/
def retrieve_memory_stats (m : VMMap) (memstats_output : List (List Char)) :
    List (List Char) :=
  memstats_output.map (substituteLine m)

/-- Descending identifier length order on mapping entries, the
substitution discipline the specification mandates for stage 1. -/
def descLen (a b : List Char × List Char) : Prop := b.1.length ≤ a.1.length

instance : DecidableRel descLen :=
  fun a b => inferInstanceAs (Decidable (b.1.length ≤ a.1.length))

/-- Stage 1 substitution as worded by the specification, for
comparison with the code: the same replacement loop, but over the
mapping reordered by descending identifier string length (stable, so
ties keep insertion order). -/
def specStage1Subst (m : VMMap) (line : List Char) : List Char :=
  (List.insertionSort descLen m).foldl
    (fun acc p => strReplace acc (vmToken p.1) p.2) line

/-- Backtracking matcher state for a regex that is a concatenation of
one-or-more character-class groups: goPlus p ps s decides whether s
splits as a possibly empty run of class p followed by text matching
the remaining groups ps, each of which must match a nonempty run of
its class. -/
def goPlus : (Char → Bool) → List (Char → Bool) → List Char → Bool
  | _, ps, [] => ps.isEmpty
  | p, [], c :: rest => p c && goPlus p [] rest
  | p, q :: qs, c :: rest =>
    (p c && goPlus p (q :: qs) rest) || (q c && goPlus q qs rest)

/-- Full anchored match of a concatenation of one-or-more
character-class groups against a whole string, the semantics of the
anchored regex used by filter_relevant_lines. -/
def matchPlusList : List (Char → Bool) → List Char → Bool
  | [], s => s.isEmpty
  | _ :: _, [] => false
  | p :: ps, c :: rest => p c && goPlus p ps rest

/-- Character-class groups of the regex on tier-mem.py line 81: one
run of non-whitespace, then four runs of digits, separated by runs of
whitespace, anchored at both ends. -/
def dataPattern : List (Char → Bool) :=
  [fun c => !pyIsSpace c, pyIsSpace, pyIsDigit, pyIsSpace, pyIsDigit,
   pyIsSpace, pyIsDigit, pyIsSpace, pyIsDigit]

/-- Acceptance test of the filtering stage: the anchored regex of
tier-mem.py line 81 applied to a line. -/
def dataMatch (s : List Char) : Bool := matchPlusList dataPattern s

/-- Model of filter_relevant_lines, tier-mem.py lines 76 to 87: keep
the stripped form of every line whose stripped form matches the data
pattern; all other lines are dropped and no error is possible. -/
def filter_relevant_lines (memstats_output : List (List Char)) : List (List Char) :=
  memstats_output.filterMap
    (fun line => if dataMatch (strip line) then some (strip line) else none)

/-- Declarative meaning of a concatenation of one-or-more groups: the
text is a concatenation of one nonempty run per group, each run inside
its class.  Used to state the filtering claim. -/
inductive PlusSeq : List (Char → Bool) → List Char → Prop
  | nil : PlusSeq [] []
  | cons (p : Char → Bool) (ps : List (Char → Bool)) (a b : List Char) :
      a ≠ [] → (∀ c ∈ a, p c = true) → PlusSeq ps b → PlusSeq (p :: ps) (a ++ b)

/-- Accumulator-based model of the Python str.split method with no
argument: split on runs of whitespace and drop empty tokens. -/
def pySplitAux : List Char → List Char → List (List Char)
  | acc, [] => if acc.isEmpty then [] else [acc.reverse]
  | acc, c :: cs =>
    if pyIsSpace c then
      if acc.isEmpty then pySplitAux [] cs else acc.reverse :: pySplitAux [] cs
    else pySplitAux (c :: acc) cs

/-- Model of the Python str.split method with no argument,
tier-mem.py line 127. -/
def pySplit (s : List Char) : List (List Char) := pySplitAux [] s

/-- Model of Python left-justified string formatting with a minimum
field width: pad with spaces on the right, never truncate. -/
def ljust (s : List Char) (w : Nat) : List Char :=
  s ++ List.replicate (w - s.length) ' '

/-- One row produced by the format string of tier-mem.py line 121:
five left-justified fields of widths w, 15, 15, 20 and 20, joined by
two spaces. -/
def formatRow (w : Nat) (c1 c2 c3 c4 c5 : List Char) : List Char :=
  ljust c1 w ++ toChars "  " ++ ljust c2 15 ++ toChars "  " ++ ljust c3 15 ++
  toChars "  " ++ ljust c4 20 ++ toChars "  " ++ ljust c5 20

/-- Application of the five-placeholder format string to a token list,
tier-mem.py line 128: Python raises IndexError when fewer than five
arguments are supplied (modelled by none) and ignores arguments beyond
the fifth. -/
def formatLine (w : Nat) (cols : List (List Char)) : Option (List Char) :=
  if 5 ≤ cols.length then
    some (formatRow w (cols.getD 0 []) (cols.getD 1 []) (cols.getD 2 [])
      (cols.getD 3 []) (cols.getD 4 []))
  else none

/-- Name-column width of the table, tier-mem.py line 117: the maximum
display-name length over all values of the mapping.  Python max on an
empty sequence raises, but main only reaches line 117 with a nonempty
mapping; the fold returns 0 on the empty mapping, a case outside the
modelled executions. -/
def maxNameLen (m : VMMap) : Nat :=
  (m.map (fun p => p.2.length)).foldl Nat.max 0

/-- Header row of the table, tier-mem.py line 122. -/
def headerLine (w : Nat) : List Char :=
  formatRow w (toChars "VM Name") (toChars "MemSize (MB)") (toChars "Active (MB)")
    (toChars "Tier0 Consumed (MB)") (toChars "Tier1 Consumed (MB)")

/-- Separator rule of the table, tier-mem.py line 123: a run of
dashes of length w + 90. -/
def sepLine (w : Nat) : List Char := List.replicate (w + 90) '-'

/-- Data-row loop of tier-mem.py lines 126 to 128: split each
surviving line on whitespace and format it; a line splitting into
fewer than five tokens would raise, modelled by none for the whole
loop. -/
def renderDataRows (w : Nat) : List (List Char) → Option (List (List Char))
  | [] => some []
  | l :: ls =>
    match formatLine w (pySplit l), renderDataRows w ls with
    | some r, some rs => some (r :: rs)
    | _, _ => none

/-- Lines printed by the rendering block of main, tier-mem.py lines
120 to 128: the caption, the header, the separator and the data
rows. -/
def renderOutput (m : VMMap) (relevant : List (List Char)) :
    Option (List (List Char)) :=
  match renderDataRows (maxNameLen m) relevant with
  | some rows =>
    some (toChars "Memory stats:" :: headerLine (maxNameLen m) ::
      sepLine (maxNameLen m) :: rows)
  | none => none

/-- Observable outcome of the body of main after a successful
connection: either the early informational return of tier-mem.py lines
106 to 108, or the rendered table. -/
inductive RunOutcome
  | noVMs (msg : List Char)
  | table (out : Option (List (List Char)))
deriving DecidableEq

/-- Model of the pipeline of main, tier-mem.py lines 101 to 128: build
the mapping, short-circuit with the informational message when it is
empty, otherwise substitute, filter and render. -/
def mainRun (vmOut statsOut : List (List Char)) : RunOutcome :=
  let mapping := get_vm_mapping vmOut
  if mapping = [] then
    RunOutcome.noVMs (toChars "No VMs are currently running on the ESXi host.")
  else
    RunOutcome.table
      (renderOutput mapping (filter_relevant_lines (retrieve_memory_stats mapping statsOut)))

/-- Session lifecycle events of main. -/
inductive SessEvent
  | opened
  | closed
deriving DecidableEq

/-- Session event trace of main, tier-mem.py lines 95 to 134: when the
connection fails main returns before opening a session, otherwise the
body runs inside a try block whose finally clause closes the session;
bodyEvents stands for whatever the body did before completing,
returning early, or raising, and in every one of those cases the
finally clause appends the close. -/
def sessionTrace (connected : Bool) (bodyEvents : List SessEvent) : List SessEvent :=
  if connected then SessEvent.opened :: bodyEvents ++ [SessEvent.closed] else []

/-- Replacement of any pattern in the empty text is the empty text. -/
theorem replaceFuel_nil (old new : List Char) (f : Nat) :
    replaceFuel old new f [] = [] := by
  cases f <;> rfl

/-- Fuel does not matter as long as it is at least the length of the
scanned text and the pattern is nonempty: every scanning step consumes
at least one character. -/
theorem replaceFuel_fuel_invariant (old new : List Char) (hold : old ≠ []) :
    ∀ (f : Nat) (g : Nat) (s : List Char), s.length ≤ f → s.length ≤ g →
      replaceFuel old new f s = replaceFuel old new g s := by
  intro f
  induction f with
  | zero =>
    intro g s hf _
    have hs : s = [] := List.length_eq_zero.mp (Nat.le_zero.mp hf)
    subst hs
    simp [replaceFuel_nil]
  | succ f ih =>
    intro g s hf hg
    cases s with
    | nil => simp [replaceFuel_nil]
    | cons c cs =>
      cases g with
      | zero => simp at hg
      | succ g =>
        have holdlen : 1 ≤ old.length := by
          cases old with
          | nil => exact absurd rfl hold
          | cons _ _ => simp
        by_cases hp : isPre old (c :: cs) = true
        · have hlen : ((c :: cs).drop old.length).length ≤ f := by
            simp only [List.length_drop, List.length_cons]
            simp only [List.length_cons] at hf
            omega
          have hlen2 : ((c :: cs).drop old.length).length ≤ g := by
            simp only [List.length_drop, List.length_cons]
            simp only [List.length_cons] at hg
            omega
          simp only [replaceFuel, hp, if_true]
          rw [ih g _ hlen hlen2]
        · have hlen : cs.length ≤ f := by
            simp only [List.length_cons] at hf
            omega
          have hlen2 : cs.length ≤ g := by
            simp only [List.length_cons] at hg
            omega
          simp only [replaceFuel, hp, if_false, Bool.false_eq_true]
          rw [ih g _ hlen hlen2]

/-- Replacement is the identity on a text in which the pattern does
not occur. -/
theorem replaceFuel_no_occur (old new : List Char) :
    ∀ (f : Nat) (s : List Char), hasInfix s old = false →
      replaceFuel old new f s = s := by
  intro f
  induction f with
  | zero => intro s _; rfl
  | succ f ih =>
    intro s hno
    cases s with
    | nil => rfl
    | cons c cs =>
      simp only [hasInfix, Bool.or_eq_false_iff] at hno
      simp only [replaceFuel, hno.1, if_false, Bool.false_eq_true]
      rw [ih cs hno.2]

/-- Model counterpart of the Python fact that str.replace returns its
receiver unchanged when the pattern is absent. -/
theorem strReplace_no_occur (s old new : List Char) (h : hasInfix s old = false) :
    strReplace s old new = s :=
  replaceFuel_no_occur old new s.length s h

/-- Substitution loop identity: when no token of the mapping occurs in
the line, the whole loop of tier-mem.py lines 70 to 71 leaves the line
unchanged. -/
theorem applySubsts_no_occur :
    ∀ (m : VMMap) (line : List Char),
      (∀ p ∈ m, hasInfix line (vmToken p.1) = false) →
      applySubsts m line = line := by
  intro m
  induction m with
  | nil => intro line _; rfl
  | cons p m ih =>
    intro line h
    have hstep : strReplace line (vmToken p.1) p.2 = line :=
      strReplace_no_occur _ _ _ (h p (List.mem_cons_self p m))
    simp only [applySubsts, List.foldl_cons, hstep]
    exact ih line (fun q hq => h q (List.mem_cons_of_mem p hq))

/-- Lookup skips an association-list block containing no binding for
the key. -/
theorem dictGet_append_of_no_key :
    ∀ (m m₂ : VMMap) (k : List Char), (∀ p ∈ m, p.1 ≠ k) →
      dictGet (m ++ m₂) k = dictGet m₂ k := by
  intro m m₂ k
  induction m with
  | nil => intro _; rfl
  | cons p m ih =>
    intro h
    have hp : p.1 ≠ k := h p (List.mem_cons_self p m)
    simp only [List.cons_append, dictGet, hp, if_false]
    exact ih (fun q hq => h q (List.mem_cons_of_mem p hq))

/-- Lookup of the updated key after an in-place dict overwrite. -/
theorem dictGet_map_update_self :
    ∀ (m : VMMap) (k v : List Char),
      m.any (fun p => decide (p.1 = k)) = true →
      dictGet (m.map (fun p => if p.1 = k then (k, v) else p)) k = some v := by
  intro m k v
  induction m with
  | nil => intro h; simp at h
  | cons p m ih =>
    intro h
    by_cases hp : p.1 = k
    · simp only [List.map_cons, hp, if_true, dictGet]
    · simp only [List.any_cons, Bool.or_eq_true, decide_eq_true_eq] at h
      rcases h with h | h
      · exact absurd h hp
      · simp only [List.map_cons, hp, if_false, dictGet]
        exact ih h

/-- Lookup of a different key is unchanged by an in-place dict
overwrite. -/
theorem dictGet_map_update_ne :
    ∀ (m : VMMap) (k v k' : List Char), k' ≠ k →
      dictGet (m.map (fun p => if p.1 = k then (k, v) else p)) k' = dictGet m k' := by
  intro m k v k' hne
  induction m with
  | nil => rfl
  | cons p m ih =>
    by_cases hp : p.1 = k
    · have hkk : ¬ (k = k') := fun h => hne h.symm
      simp only [List.map_cons, hp, if_true, dictGet]
      rw [if_neg hkk, if_neg hkk]
      exact ih
    · simp only [List.map_cons, hp, if_false, dictGet]
      by_cases hq : p.1 = k'
      · rw [if_pos hq, if_pos hq]
      · rw [if_neg hq, if_neg hq]
        exact ih

/-- Lookup of the inserted key after a dict store. -/
theorem dictGet_dictInsert_self (m : VMMap) (k v : List Char) :
    dictGet (dictInsert m k v) k = some v := by
  unfold dictInsert
  by_cases hany : m.any (fun p => decide (p.1 = k)) = true
  · rw [if_pos hany]
    exact dictGet_map_update_self m k v hany
  · rw [if_neg hany]
    have hall : ∀ p ∈ m, p.1 ≠ k := by
      intro p hp heq
      exact hany (List.any_eq_true.mpr ⟨p, hp, by simp [heq]⟩)
    rw [dictGet_append_of_no_key m _ k hall]
    simp [dictGet]

/-- Lookup of a different key is unchanged by a dict store. -/
theorem dictGet_dictInsert_ne (m : VMMap) (k v k' : List Char) (hne : k' ≠ k) :
    dictGet (dictInsert m k v) k' = dictGet m k' := by
  unfold dictInsert
  by_cases hany : m.any (fun p => decide (p.1 = k)) = true
  · rw [if_pos hany]
    exact dictGet_map_update_ne m k v k' hne
  · rw [if_neg hany]
    induction m with
    | nil =>
      simp only [List.nil_append, dictGet]
      rw [if_neg (fun h : k = k' => hne h.symm)]
    | cons p m ih =>
      simp only [List.cons_append, dictGet]
      by_cases hq : p.1 = k'
      · rw [if_pos hq, if_pos hq]
      · rw [if_neg hq, if_neg hq]
        apply ih
        intro h
        apply hany
        simp only [List.any_cons, Bool.or_eq_true]
        right
        exact h

/-- Lookup after folding the mapping-builder step over lines none of
which yields a pair for the key. -/
theorem dictGet_foldl_untouched :
    ∀ (ls : List (List Char)) (M : VMMap) (k : List Char),
      (∀ l ∈ ls, ∀ v, lineEntry l ≠ some (k, v)) →
      dictGet (ls.foldl vmStep M) k = dictGet M k := by
  intro ls
  induction ls with
  | nil => intro M k _; rfl
  | cons l ls ih =>
    intro M k h
    simp only [List.foldl_cons]
    rw [ih (vmStep M l) k (fun q hq => h q (List.mem_cons_of_mem l hq))]
    unfold vmStep
    cases hle : lineEntry l with
    | none => rfl
    | some kv =>
      have hk : kv.1 ≠ k := by
        intro heq
        apply h l (List.mem_cons_self l ls) kv.2
        rw [hle, ← heq]
      exact dictGet_dictInsert_ne M kv.1 kv.2 k (fun h2 => hk h2.symm)

/-- An empty group list only matches the empty text. -/
theorem plusSeq_nil_iff (s : List Char) : PlusSeq [] s ↔ s = [] := by
  constructor
  · intro h
    cases h
    rfl
  · intro h
    subst h
    exact PlusSeq.nil

/-- Only the empty group list matches the empty text. -/
theorem plusSeq_empty (ps : List (Char → Bool)) (s : List Char)
    (h : PlusSeq ps s) (hs : s = []) : ps = [] := by
  cases h with
  | nil => rfl
  | cons p ps a b ha hall hrest =>
    rcases List.append_eq_nil.mp hs with ⟨ha2, _⟩
    exact absurd ha2 ha

/-- Inversion of the declarative match for a leading group. -/
theorem plusSeq_cons_iff (p : Char → Bool) (ps : List (Char → Bool)) (s : List Char) :
    PlusSeq (p :: ps) s ↔
      ∃ a b, a ≠ [] ∧ (∀ c ∈ a, p c = true) ∧ PlusSeq ps b ∧ s = a ++ b := by
  constructor
  · intro h
    cases h with
    | cons _ _ a b ha hall hrest => exact ⟨a, b, ha, hall, hrest, rfl⟩
  · rintro ⟨a, b, ha, hall, hrest, rfl⟩
    exact PlusSeq.cons p ps a b ha hall hrest

/-- Soundness and completeness of the matcher state: goPlus decides
the split into a possibly empty run of the current class followed by a
declarative match of the remaining groups. -/
theorem goPlus_iff :
    ∀ (s : List Char) (p : Char → Bool) (ps : List (Char → Bool)),
      goPlus p ps s = true ↔
        ∃ a b, (∀ c ∈ a, p c = true) ∧ PlusSeq ps b ∧ s = a ++ b := by
  intro s
  induction s with
  | nil =>
    intro p ps
    simp only [goPlus, List.isEmpty_iff]
    constructor
    · intro h
      subst h
      refine ⟨[], [], ?_, PlusSeq.nil, rfl⟩
      intro c hc
      cases hc
    · rintro ⟨a, b, _, hps, heq⟩
      rcases List.append_eq_nil.mp heq.symm with ⟨ha, hb⟩
      subst ha
      subst hb
      exact plusSeq_empty ps [] hps rfl
  | cons c rest ih =>
    intro p ps
    cases ps with
    | nil =>
      simp only [goPlus, Bool.and_eq_true]
      constructor
      · rintro ⟨hc, hrest⟩
        rcases (ih p []).mp hrest with ⟨a, b, hall, hps, heq⟩
        have hb : b = [] := (plusSeq_nil_iff b).mp hps
        subst hb
        rw [List.append_nil] at heq
        refine ⟨c :: a, [], ?_, PlusSeq.nil, ?_⟩
        · intro x hx
          rcases List.mem_cons.mp hx with h1 | h2
          · rw [h1]; exact hc
          · exact hall x h2
        · rw [List.append_nil, heq]
      · rintro ⟨a, b, hall, hps, heq⟩
        have hb : b = [] := (plusSeq_nil_iff b).mp hps
        subst hb
        rw [List.append_nil] at heq
        subst heq
        refine ⟨hall c (List.mem_cons_self c rest), ?_⟩
        exact (ih p []).mpr ⟨rest, [],
          fun x hx => hall x (List.mem_cons_of_mem c hx), PlusSeq.nil,
          (List.append_nil rest).symm⟩
    | cons q qs =>
      simp only [goPlus, Bool.or_eq_true, Bool.and_eq_true]
      constructor
      · rintro (⟨hc, hg⟩ | ⟨hq, hg⟩)
        · rcases (ih p (q :: qs)).mp hg with ⟨a, b, hall, hps, heq⟩
          refine ⟨c :: a, b, ?_, hps, ?_⟩
          · intro x hx
            rcases List.mem_cons.mp hx with h1 | h2
            · rw [h1]; exact hc
            · exact hall x h2
          · rw [List.cons_append, heq]
        · rcases (ih q qs).mp hg with ⟨a, b, hall, hps, heq⟩
          refine ⟨[], c :: rest, fun x hx => absurd hx (List.not_mem_nil x), ?_, rfl⟩
          have hstep : c :: rest = (c :: a) ++ b := by rw [List.cons_append, heq]
          rw [hstep]
          refine PlusSeq.cons q qs (c :: a) b (by simp) ?_ hps
          intro x hx
          rcases List.mem_cons.mp hx with h1 | h2
          · rw [h1]; exact hq
          · exact hall x h2
      · rintro ⟨a, b, hall, hps, heq⟩
        cases a with
        | nil =>
          right
          rw [List.nil_append] at heq
          subst heq
          rcases (plusSeq_cons_iff q qs _).mp hps with ⟨a₁, b₁, ha₁, hall₁, hps₁, heq₁⟩
          cases a₁ with
          | nil => exact absurd rfl ha₁
          | cons x a₁ =>
            simp only [List.cons_append, List.cons.injEq] at heq₁
            obtain ⟨hx, hrest⟩ := heq₁
            refine ⟨?_, ?_⟩
            · rw [hx]
              exact hall₁ x (List.mem_cons_self x a₁)
            · exact (ih q qs).mpr ⟨a₁, b₁,
                fun y hy => hall₁ y (List.mem_cons_of_mem x hy), hps₁, hrest⟩
        | cons x a =>
          left
          simp only [List.cons_append, List.cons.injEq] at heq
          obtain ⟨hx, hrest⟩ := heq
          refine ⟨?_, ?_⟩
          · rw [hx]
            exact hall x (List.mem_cons_self x a)
          · exact (ih p (q :: qs)).mpr ⟨a, b,
              fun y hy => hall y (List.mem_cons_of_mem x hy), hps, hrest⟩

/-- Soundness and completeness of the anchored matcher against the
declarative match. -/
theorem matchPlusList_iff :
    ∀ (ps : List (Char → Bool)) (s : List Char),
      matchPlusList ps s = true ↔ PlusSeq ps s := by
  intro ps s
  cases ps with
  | nil =>
    simp only [matchPlusList, List.isEmpty_iff, plusSeq_nil_iff]
  | cons p ps =>
    cases s with
    | nil =>
      simp only [matchPlusList, Bool.false_eq_true, false_iff]
      intro h
      rcases (plusSeq_cons_iff p ps []).mp h with ⟨a, b, ha, _, _, heq⟩
      rcases List.append_eq_nil.mp heq.symm with ⟨h1, _⟩
      exact absurd h1 ha
    | cons c rest =>
      simp only [matchPlusList, Bool.and_eq_true]
      rw [plusSeq_cons_iff]
      constructor
      · rintro ⟨hc, hg⟩
        rcases (goPlus_iff rest p ps).mp hg with ⟨a, b, hall, hps, heq⟩
        refine ⟨c :: a, b, by simp, ?_, hps, by rw [List.cons_append, heq]⟩
        intro x hx
        rcases List.mem_cons.mp hx with h1 | h2
        · rw [h1]; exact hc
        · exact hall x h2
      · rintro ⟨a, b, ha, hall, hps, heq⟩
        cases a with
        | nil => exact absurd rfl ha
        | cons x a =>
          simp only [List.cons_append, List.cons.injEq] at heq
          obtain ⟨hx, hrest⟩ := heq
          refine ⟨by rw [hx]; exact hall x (List.mem_cons_self x a), ?_⟩
          exact (goPlus_iff rest p ps).mpr ⟨a, b,
            fun y hy => hall y (List.mem_cons_of_mem x hy), hps, hrest⟩

/-- Digits are not whitespace. -/
theorem pyIsDigit_not_space (c : Char) (h : pyIsDigit c = true) :
    pyIsSpace c = false := by
  simp only [pyIsDigit, Bool.and_eq_true, decide_eq_true_eq] at h
  simp only [pyIsSpace, Bool.or_eq_false_iff, decide_eq_false_iff_not]
  omega

/-- Explicit shape characterisation of the data-row regex: a line
matches the pattern of tier-mem.py line 81 exactly when it is one
nonempty non-whitespace token followed by exactly four nonempty
decimal-integer tokens, separated by nonempty runs of whitespace, with
nothing before or after. -/
theorem dataMatch_iff_shape (u : List Char) :
    dataMatch u = true ↔
      ∃ t w1 d1 w2 d2 w3 d3 w4 d4 : List Char,
        u = t ++ w1 ++ d1 ++ w2 ++ d2 ++ w3 ++ d3 ++ w4 ++ d4 ∧
        (t ≠ [] ∧ ∀ c ∈ t, pyIsSpace c = false) ∧
        (w1 ≠ [] ∧ ∀ c ∈ w1, pyIsSpace c = true) ∧
        (d1 ≠ [] ∧ ∀ c ∈ d1, pyIsDigit c = true) ∧
        (w2 ≠ [] ∧ ∀ c ∈ w2, pyIsSpace c = true) ∧
        (d2 ≠ [] ∧ ∀ c ∈ d2, pyIsDigit c = true) ∧
        (w3 ≠ [] ∧ ∀ c ∈ w3, pyIsSpace c = true) ∧
        (d3 ≠ [] ∧ ∀ c ∈ d3, pyIsDigit c = true) ∧
        (w4 ≠ [] ∧ ∀ c ∈ w4, pyIsSpace c = true) ∧
        (d4 ≠ [] ∧ ∀ c ∈ d4, pyIsDigit c = true) := by
  rw [dataMatch, matchPlusList_iff, dataPattern]
  constructor
  · intro h
    rcases (plusSeq_cons_iff _ _ _).mp h with ⟨t, b1, ht, hallt, h1, rfl⟩
    rcases (plusSeq_cons_iff _ _ _).mp h1 with ⟨w1, b2, hw1, hallw1, h2, rfl⟩
    rcases (plusSeq_cons_iff _ _ _).mp h2 with ⟨d1, b3, hd1, halld1, h3, rfl⟩
    rcases (plusSeq_cons_iff _ _ _).mp h3 with ⟨w2, b4, hw2, hallw2, h4, rfl⟩
    rcases (plusSeq_cons_iff _ _ _).mp h4 with ⟨d2, b5, hd2, halld2, h5, rfl⟩
    rcases (plusSeq_cons_iff _ _ _).mp h5 with ⟨w3, b6, hw3, hallw3, h6, rfl⟩
    rcases (plusSeq_cons_iff _ _ _).mp h6 with ⟨d3, b7, hd3, halld3, h7, rfl⟩
    rcases (plusSeq_cons_iff _ _ _).mp h7 with ⟨w4, b8, hw4, hallw4, h8, rfl⟩
    rcases (plusSeq_cons_iff _ _ _).mp h8 with ⟨d4, b9, hd4, halld4, h9, rfl⟩
    have hb9 : b9 = [] := (plusSeq_nil_iff b9).mp h9
    subst hb9
    refine ⟨t, w1, d1, w2, d2, w3, d3, w4, d4, by simp, ⟨ht, ?_⟩, ⟨hw1, hallw1⟩,
      ⟨hd1, halld1⟩, ⟨hw2, hallw2⟩, ⟨hd2, halld2⟩, ⟨hw3, hallw3⟩,
      ⟨hd3, halld3⟩, ⟨hw4, hallw4⟩, ⟨hd4, halld4⟩⟩
    intro c hc
    have := hallt c hc
    simpa using this
  · rintro ⟨t, w1, d1, w2, d2, w3, d3, w4, d4, rfl, ⟨ht, hallt⟩, ⟨hw1, hallw1⟩,
      ⟨hd1, halld1⟩, ⟨hw2, hallw2⟩, ⟨hd2, halld2⟩, ⟨hw3, hallw3⟩,
      ⟨hd3, halld3⟩, ⟨hw4, hallw4⟩, ⟨hd4, halld4⟩⟩
    have hlast : PlusSeq [pyIsDigit] d4 := by
      have h0 : PlusSeq [pyIsDigit] (d4 ++ []) :=
        PlusSeq.cons _ _ d4 [] hd4 halld4 PlusSeq.nil
      rwa [List.append_nil] at h0
    simp only [List.append_assoc]
    refine PlusSeq.cons _ _ t _ ht ?_ ?_
    · intro c hc
      simp [hallt c hc]
    refine PlusSeq.cons _ _ w1 _ hw1 hallw1 ?_
    refine PlusSeq.cons _ _ d1 _ hd1 halld1 ?_
    refine PlusSeq.cons _ _ w2 _ hw2 hallw2 ?_
    refine PlusSeq.cons _ _ d2 _ hd2 halld2 ?_
    refine PlusSeq.cons _ _ w3 _ hw3 hallw3 ?_
    refine PlusSeq.cons _ _ d3 _ hd3 halld3 ?_
    exact PlusSeq.cons _ _ w4 _ hw4 hallw4 hlast

/-- Splitting steps over a leading run of non-whitespace: the run is
accumulated. -/
theorem pySplitAux_nonspace :
    ∀ (t acc rest : List Char), (∀ c ∈ t, pyIsSpace c = false) →
      pySplitAux acc (t ++ rest) = pySplitAux (t.reverse ++ acc) rest := by
  intro t
  induction t with
  | nil => intro acc rest _; simp
  | cons c t ih =>
    intro acc rest h
    have hc : pyIsSpace c = false := h c (List.mem_cons_self c t)
    simp only [List.cons_append, pySplitAux, hc, Bool.false_eq_true, if_false,
      List.append_eq]
    rw [ih (c :: acc) rest (fun x hx => h x (List.mem_cons_of_mem c hx))]
    simp [List.reverse_cons, List.append_assoc]

/-- Splitting with an empty accumulator skips a run of whitespace. -/
theorem pySplitAux_spaces :
    ∀ (w rest : List Char), (∀ c ∈ w, pyIsSpace c = true) →
      pySplitAux [] (w ++ rest) = pySplitAux [] rest := by
  intro w
  induction w with
  | nil => intro rest _; rfl
  | cons c w ih =>
    intro rest h
    have hc : pyIsSpace c = true := h c (List.mem_cons_self c w)
    simp only [List.cons_append, pySplitAux, hc, if_true, List.isEmpty_nil]
    exact ih rest (fun x hx => h x (List.mem_cons_of_mem c hx))

/-- Splitting with a nonempty accumulator emits the accumulated token
at a run of whitespace. -/
theorem pySplitAux_flush :
    ∀ (w acc rest : List Char), acc ≠ [] → w ≠ [] →
      (∀ c ∈ w, pyIsSpace c = true) →
      pySplitAux acc (w ++ rest) = acc.reverse :: pySplitAux [] rest := by
  intro w acc rest hacc hw h
  cases w with
  | nil => exact absurd rfl hw
  | cons c w =>
    have hc : pyIsSpace c = true := h c (List.mem_cons_self c w)
    have hne : acc.isEmpty = false := by
      cases acc with
      | nil => exact absurd rfl hacc
      | cons _ _ => rfl
    simp only [List.cons_append, pySplitAux, hc, if_true, hne,
      Bool.false_eq_true, if_false, List.append_eq]
    rw [pySplitAux_spaces w rest (fun x hx => h x (List.mem_cons_of_mem c hx))]

/-- Splitting flushes a nonempty accumulator at the end of the
text. -/
theorem pySplitAux_end (acc : List Char) (hacc : acc ≠ []) :
    pySplitAux acc [] = [acc.reverse] := by
  cases acc with
  | nil => exact absurd rfl hacc
  | cons _ _ => rfl

/-- Tokenisation of a line in data-row shape: the Python split with no
argument returns exactly the five tokens. -/
theorem pySplit_shape (t w1 d1 w2 d2 w3 d3 w4 d4 : List Char)
    (ht : t ≠ []) (hallt : ∀ c ∈ t, pyIsSpace c = false)
    (hw1 : w1 ≠ []) (hallw1 : ∀ c ∈ w1, pyIsSpace c = true)
    (hd1 : d1 ≠ []) (halld1 : ∀ c ∈ d1, pyIsSpace c = false)
    (hw2 : w2 ≠ []) (hallw2 : ∀ c ∈ w2, pyIsSpace c = true)
    (hd2 : d2 ≠ []) (halld2 : ∀ c ∈ d2, pyIsSpace c = false)
    (hw3 : w3 ≠ []) (hallw3 : ∀ c ∈ w3, pyIsSpace c = true)
    (hd3 : d3 ≠ []) (halld3 : ∀ c ∈ d3, pyIsSpace c = false)
    (hw4 : w4 ≠ []) (hallw4 : ∀ c ∈ w4, pyIsSpace c = true)
    (hd4 : d4 ≠ []) (halld4 : ∀ c ∈ d4, pyIsSpace c = false) :
    pySplit (t ++ w1 ++ d1 ++ w2 ++ d2 ++ w3 ++ d3 ++ w4 ++ d4)
      = [t, d1, d2, d3, d4] := by
  have hrev : ∀ x : List Char, x ≠ [] → x.reverse ≠ [] := by
    intro x hx h
    exact hx (by simpa using congrArg List.reverse h)
  unfold pySplit
  simp only [List.append_assoc]
  rw [pySplitAux_nonspace t [] _ hallt, List.append_nil,
    pySplitAux_flush w1 t.reverse _ (hrev t ht) hw1 hallw1,
    pySplitAux_nonspace d1 [] _ halld1, List.append_nil,
    pySplitAux_flush w2 d1.reverse _ (hrev d1 hd1) hw2 hallw2,
    pySplitAux_nonspace d2 [] _ halld2, List.append_nil,
    pySplitAux_flush w3 d2.reverse _ (hrev d2 hd2) hw3 hallw3,
    pySplitAux_nonspace d3 [] _ halld3, List.append_nil,
    pySplitAux_flush w4 d3.reverse _ (hrev d3 hd3) hw4 hallw4,
    ← List.append_nil d4, pySplitAux_nonspace d4 [] [] halld4, List.append_nil,
    pySplitAux_end d4.reverse (hrev d4 hd4)]
  simp

/-- Every line kept by the filtering stage satisfies the data-row
test (it is stored in stripped form, on which the test holds). -/
theorem mem_filter_relevant (stats : List (List Char)) (line : List Char)
    (h : line ∈ filter_relevant_lines stats) : dataMatch line = true := by
  rcases List.mem_filterMap.mp h with ⟨a, _, ha⟩
  by_cases hm : dataMatch (strip a) = true
  · rw [if_pos hm] at ha
    rw [← Option.some.inj ha]
    exact hm
  · rw [if_neg hm] at ha
    cases ha

/-- A line satisfying the data-row test splits into exactly five
whitespace-separated tokens. -/
theorem pySplit_length_of_dataMatch (line : List Char) (h : dataMatch line = true) :
    (pySplit line).length = 5 := by
  rcases (dataMatch_iff_shape line).mp h with
    ⟨t, w1, d1, w2, d2, w3, d3, w4, d4, heq, ⟨ht, hallt⟩, ⟨hw1, hallw1⟩,
     ⟨hd1, halld1⟩, ⟨hw2, hallw2⟩, ⟨hd2, halld2⟩, ⟨hw3, hallw3⟩,
     ⟨hd3, halld3⟩, ⟨hw4, hallw4⟩, ⟨hd4, halld4⟩⟩
  rw [heq, pySplit_shape t w1 d1 w2 d2 w3 d3 w4 d4 ht hallt hw1 hallw1 hd1
    (fun c hc => pyIsDigit_not_space c (halld1 c hc)) hw2 hallw2 hd2
    (fun c hc => pyIsDigit_not_space c (halld2 c hc)) hw3 hallw3 hd3
    (fun c hc => pyIsDigit_not_space c (halld3 c hc)) hw4 hallw4 hd4
    (fun c hc => pyIsDigit_not_space c (halld4 c hc))]
  rfl

/-- When every line splits into at least five tokens, the data-row
loop succeeds and produces exactly the per-line formatted rows. -/
theorem renderDataRows_eq_map (w : Nat) :
    ∀ (rows : List (List Char)), (∀ l ∈ rows, 5 ≤ (pySplit l).length) →
      renderDataRows w rows = some (rows.map (fun l =>
        formatRow w ((pySplit l).getD 0 []) ((pySplit l).getD 1 [])
          ((pySplit l).getD 2 []) ((pySplit l).getD 3 []) ((pySplit l).getD 4 []))) := by
  intro rows
  induction rows with
  | nil => intro _; rfl
  | cons l ls ih =>
    intro h
    have h5 : 5 ≤ (pySplit l).length := h l (List.mem_cons_self l ls)
    simp only [renderDataRows, formatLine, if_pos h5, List.map_cons]
    rw [ih (fun x hx => h x (List.mem_cons_of_mem l hx))]

/-- The initial accumulator bounds a maximum fold from below. -/
theorem foldl_max_init : ∀ (l : List Nat) (a : Nat), a ≤ l.foldl Nat.max a := by
  intro l
  induction l with
  | nil => intro a; exact Nat.le_refl a
  | cons y l ih =>
    intro a
    exact Nat.le_trans (Nat.le_max_left a y) (ih (Nat.max a y))

/-- Every element bounds a maximum fold from below. -/
theorem foldl_max_le :
    ∀ (l : List Nat) (a x : Nat), x ∈ l → x ≤ l.foldl Nat.max a := by
  intro l
  induction l with
  | nil => intro a x hx; cases hx
  | cons y l ih =>
    intro a x hx
    rcases List.mem_cons.mp hx with h1 | h2
    · rw [h1]
      exact Nat.le_trans (Nat.le_max_right a y) (foldl_max_init l (Nat.max a y))
    · exact ih (Nat.max a y) x h2

/-- A maximum fold returns its accumulator or one of the elements. -/
theorem foldl_max_attained :
    ∀ (l : List Nat) (a : Nat), l.foldl Nat.max a = a ∨ l.foldl Nat.max a ∈ l := by
  intro l
  induction l with
  | nil => intro a; left; rfl
  | cons y l ih =>
    intro a
    rcases ih (Nat.max a y) with h | h
    · rcases Nat.le_total a y with hab | hab
      · right
        have hm : Nat.max a y = y := Nat.max_eq_right hab
        rw [List.foldl_cons, h, hm]
        exact List.mem_cons_self y l
      · left
        have hm : Nat.max a y = a := Nat.max_eq_left hab
        rw [List.foldl_cons, h, hm]
    · right
      rw [List.foldl_cons]
      exact List.mem_cons_of_mem y h

/-- The name-column width bounds every display-name length of the
mapping. -/
theorem maxNameLen_ge (m : VMMap) (p : List Char × List Char) (hp : p ∈ m) :
    p.2.length ≤ maxNameLen m :=
  foldl_max_le _ 0 p.2.length (List.mem_map_of_mem (fun q => q.2.length) hp)

/-- On a nonempty mapping the name-column width is attained by some
entry. -/
theorem maxNameLen_attained (m : VMMap) (hm : m ≠ []) :
    ∃ p ∈ m, p.2.length = maxNameLen m := by
  rcases foldl_max_attained (m.map (fun q => q.2.length)) 0 with h | h
  · cases m with
    | nil => exact absurd rfl hm
    | cons p m =>
      refine ⟨p, List.mem_cons_self p m, ?_⟩
      have hle : p.2.length ≤ maxNameLen (p :: m) :=
        maxNameLen_ge (p :: m) p (List.mem_cons_self p m)
      have hz : maxNameLen (p :: m) = 0 := h
      omega
  · rcases List.mem_map.mp h with ⟨p, hp, he⟩
    exact ⟨p, hp, he⟩

/-- Claim C1, counterexample: stage 1 does not substitute in
descending identifier-length order.  With identifiers 1 and 10
inserted in that order (insertion order puts the shorter id first)
and the line vm.10 1 2 3 4, the code replaces vm.1 first, partially
rewriting the token of the longer identifier and producing
A0 1 2 3 4, while the descending-length discipline the claim states
produces B 1 2 3 4.  The mapping is reachable: it is exactly what
get_vm_mapping builds from the listing shown. -/
theorem stage1_descending_order_cex :
    get_vm_mapping [toChars "hdr", toChars "x,A,x,x,1", toChars "x,B,x,x,10"]
      = [(toChars "1", toChars "A"), (toChars "10", toChars "B")] ∧
    applySubsts [(toChars "1", toChars "A"), (toChars "10", toChars "B")]
        (toChars "vm.10 1 2 3 4")
      = toChars "A0 1 2 3 4" ∧
    specStage1Subst [(toChars "1", toChars "A"), (toChars "10", toChars "B")]
        (toChars "vm.10 1 2 3 4")
      = toChars "B 1 2 3 4" ∧
    applySubsts [(toChars "1", toChars "A"), (toChars "10", toChars "B")]
        (toChars "vm.10 1 2 3 4")
      ≠ specStage1Subst [(toChars "1", toChars "A"), (toChars "10", toChars "B")]
        (toChars "vm.10 1 2 3 4") :=
  ⟨by decide, by decide, by decide, by decide⟩

/-- Claim C1 (amended): stage 1 applies the substitutions in the
stored (insertion) order of the mapping, each step replacing every
occurrence of its token in the current line; this coincides with the
descending-identifier-length discipline stated by the claim exactly
when the mapping is already stored in descending identifier-length
order. -/
theorem stage1_subst_in_mapping_order (m : VMMap) (line : List Char)
    (h : List.Sorted descLen m) :
    applySubsts m line = specStage1Subst m line := by
  unfold specStage1Subst
  rw [List.Sorted.insertionSort_eq h]
  rfl

/-- Witness for the amended claim C1 at a concrete mapping stored in
descending identifier-length order. -/
theorem stage1_subst_in_mapping_order_witness :
    List.Sorted descLen [(toChars "10", toChars "B"), (toChars "1", toChars "A")] ∧
    applySubsts [(toChars "10", toChars "B"), (toChars "1", toChars "A")]
        (toChars "vm.10 1 2 3 4")
      = specStage1Subst [(toChars "10", toChars "B"), (toChars "1", toChars "A")]
        (toChars "vm.10 1 2 3 4") :=
  ⟨by decide, stage1_subst_in_mapping_order _ _ (by decide)⟩

/-- Claim C2, counterexample: even when no line contains any vm.id
token of the mapping, stage 1 is not a no-op on the text, because the
loop body of tier-mem.py line 72 strips every line: the token-free
line consisting of x surrounded by spaces comes out as the bare x. -/
theorem stage1_noop_cex :
    (∀ p ∈ ([(toChars "1", toChars "A")] : VMMap),
        hasInfix (toChars " x ") (vmToken p.1) = false) ∧
    retrieve_memory_stats [(toChars "1", toChars "A")] [toChars " x "]
      ≠ [toChars " x "] :=
  ⟨by decide, by decide⟩

/-- Claim C2 (amended): when no input line contains any token vm.id
for an id of the mapping, the substitution pass proper is the
identity on every line, and stage 1 as a whole returns the input
lines with only the unconditional trimming of surrounding whitespace
applied. -/
theorem stage1_disjoint_tokens_strip_only (m : VMMap) (lines : List (List Char))
    (h : ∀ l ∈ lines, ∀ p ∈ m, hasInfix l (vmToken p.1) = false) :
    retrieve_memory_stats m lines = lines.map strip ∧
    ∀ l ∈ lines, applySubsts m l = l := by
  have hid : ∀ l ∈ lines, applySubsts m l = l := fun l hl =>
    applySubsts_no_occur m l (fun p hp => h l hl p hp)
  constructor
  · unfold retrieve_memory_stats
    apply List.map_congr_left
    intro l hl
    unfold substituteLine
    rw [hid l hl]
  · exact hid

/-- Witness for the amended claim C2 at a concrete token-free
line. -/
theorem stage1_disjoint_tokens_strip_only_witness :
    (∀ l ∈ [toChars " a b "], ∀ p ∈ ([(toChars "1", toChars "A")] : VMMap),
        hasInfix l (vmToken p.1) = false) ∧
    (retrieve_memory_stats [(toChars "1", toChars "A")] [toChars " a b "]
        = [toChars " a b "].map strip ∧
     ∀ l ∈ [toChars " a b "], applySubsts [(toChars "1", toChars "A")] l = l) :=
  ⟨by decide, stage1_disjoint_tokens_strip_only _ _ (by decide)⟩

/-- Claim C3: a line is accepted by the filtering stage exactly when,
after trimming surrounding whitespace, it consists of one nonempty
non-whitespace token followed by exactly four nonempty
decimal-integer tokens, separated by nonempty runs of whitespace,
with nothing else before or after; the filter is a total function, so
every non-matching line is dropped without any error. -/
theorem data_row_iff_token_shape (line : List Char) :
    dataMatch (strip line) = true ↔
      ∃ t w1 d1 w2 d2 w3 d3 w4 d4 : List Char,
        strip line = t ++ w1 ++ d1 ++ w2 ++ d2 ++ w3 ++ d3 ++ w4 ++ d4 ∧
        (t ≠ [] ∧ ∀ c ∈ t, pyIsSpace c = false) ∧
        (w1 ≠ [] ∧ ∀ c ∈ w1, pyIsSpace c = true) ∧
        (d1 ≠ [] ∧ ∀ c ∈ d1, pyIsDigit c = true) ∧
        (w2 ≠ [] ∧ ∀ c ∈ w2, pyIsSpace c = true) ∧
        (d2 ≠ [] ∧ ∀ c ∈ d2, pyIsDigit c = true) ∧
        (w3 ≠ [] ∧ ∀ c ∈ w3, pyIsSpace c = true) ∧
        (d3 ≠ [] ∧ ∀ c ∈ d3, pyIsDigit c = true) ∧
        (w4 ≠ [] ∧ ∀ c ∈ w4, pyIsSpace c = true) ∧
        (d4 ≠ [] ∧ ∀ c ∈ d4, pyIsDigit c = true) :=
  dataMatch_iff_shape (strip line)

/-- Claim C4: the name-column width is the maximum display-name
length over the entire identifier mapping (every entry is bounded by
it and some entry attains it, independently of the filtered rows),
and the separator rule consists of exactly that width plus 90 dash
characters. -/
theorem name_column_width_and_separator (m : VMMap) (hm : m ≠ []) :
    (∀ p ∈ m, p.2.length ≤ maxNameLen m) ∧
    (∃ p ∈ m, p.2.length = maxNameLen m) ∧
    (sepLine (maxNameLen m)).length = maxNameLen m + 90 ∧
    ∀ c ∈ sepLine (maxNameLen m), c = '-' := by
  refine ⟨fun p hp => maxNameLen_ge m p hp, maxNameLen_attained m hm, ?_, ?_⟩
  · simp [sepLine]
  · intro c hc
    exact List.eq_of_mem_replicate hc

/-- Witness for claim C4 at a concrete one-entry mapping. -/
theorem name_column_width_and_separator_witness :
    (([(toChars "7", toChars "ab")] : VMMap) ≠ []) ∧
    ((∀ p ∈ ([(toChars "7", toChars "ab")] : VMMap),
        p.2.length ≤ maxNameLen [(toChars "7", toChars "ab")]) ∧
     (∃ p ∈ ([(toChars "7", toChars "ab")] : VMMap),
        p.2.length = maxNameLen [(toChars "7", toChars "ab")]) ∧
     (sepLine (maxNameLen [(toChars "7", toChars "ab")])).length
        = maxNameLen [(toChars "7", toChars "ab")] + 90 ∧
     ∀ c ∈ sepLine (maxNameLen [(toChars "7", toChars "ab")]), c = '-') :=
  ⟨by decide, name_column_width_and_separator _ (by decide)⟩

/-- Claim C5: when two listing lines after the header yield the same
identifier with different names, and no later line yields that
identifier, the mapping holds the name of the later of the two lines
(last-write-wins on key collision). -/
theorem vm_mapping_last_write_wins
    (hd l1 l2 : List Char) (pre mid post : List (List Char))
    (k n1 n2 : List Char)
    (h1 : lineEntry l1 = some (k, n1)) (h2 : lineEntry l2 = some (k, n2))
    (hne : n1 ≠ n2)
    (hpost : ∀ l ∈ post, ∀ v, lineEntry l ≠ some (k, v)) :
    dictGet (get_vm_mapping (hd :: (pre ++ l1 :: (mid ++ l2 :: post)))) k
      = some n2 := by
  unfold get_vm_mapping
  simp only [List.drop_succ_cons, List.drop_zero]
  rw [List.foldl_append, List.foldl_cons, List.foldl_append, List.foldl_cons]
  rw [dictGet_foldl_untouched post _ k hpost]
  simp only [vmStep, h2]
  exact dictGet_dictInsert_self _ k n2

/-- Witness for claim C5 at a concrete three-line listing. -/
theorem vm_mapping_last_write_wins_witness :
    lineEntry (toChars "x,NameA,x,x,7") = some (toChars "7", toChars "NameA") ∧
    lineEntry (toChars "x,NameB,x,x,7") = some (toChars "7", toChars "NameB") ∧
    toChars "NameA" ≠ toChars "NameB" ∧
    dictGet (get_vm_mapping (toChars "hdr" ::
        ([] ++ toChars "x,NameA,x,x,7" :: ([] ++ toChars "x,NameB,x,x,7" :: []))))
      (toChars "7") = some (toChars "NameB") :=
  ⟨by decide, by decide, by decide,
    vm_mapping_last_write_wins (toChars "hdr") (toChars "x,NameA,x,x,7")
      (toChars "x,NameB,x,x,7") [] [] [] (toChars "7") (toChars "NameA")
      (toChars "NameB") (by decide) (by decide) (by decide)
      (fun l hl => absurd hl (List.not_mem_nil l))⟩

/-- Claim C6: a process listing with zero or one lines produces the
empty mapping, because the first line is discarded unconditionally as
a header and the builder is a total function, so short input cannot
fail. -/
theorem vm_mapping_short_input_empty (output : List (List Char))
    (h : output.length ≤ 1) : get_vm_mapping output = [] := by
  cases output with
  | nil => rfl
  | cons a t =>
    cases t with
    | nil => rfl
    | cons b t2 =>
      simp only [List.length_cons] at h
      omega

/-- Witness for claim C6 at a concrete one-line listing. -/
theorem vm_mapping_short_input_empty_witness :
    ([toChars "VMName,x"] : List (List Char)).length ≤ 1 ∧
    get_vm_mapping [toChars "VMName,x"] = [] :=
  ⟨by decide, vm_mapping_short_input_empty _ (by decide)⟩

/-- Claim C7: stage 3 renders exactly one formatted row per line kept
by the stage-2 filter, in the same order: the data-row loop succeeds
and returns precisely the per-line formatting map of the filtered
lines, so in particular the row count equals the filtered line
count. -/
theorem render_one_row_per_filtered_line (m : VMMap) (raw : List (List Char)) :
    renderDataRows (maxNameLen m) (filter_relevant_lines (retrieve_memory_stats m raw))
      = some ((filter_relevant_lines (retrieve_memory_stats m raw)).map (fun l =>
          formatRow (maxNameLen m) ((pySplit l).getD 0 []) ((pySplit l).getD 1 [])
            ((pySplit l).getD 2 []) ((pySplit l).getD 3 []) ((pySplit l).getD 4 []))) ∧
    ∀ rows, renderDataRows (maxNameLen m)
        (filter_relevant_lines (retrieve_memory_stats m raw)) = some rows →
      rows.length = (filter_relevant_lines (retrieve_memory_stats m raw)).length := by
  have hall : ∀ l ∈ filter_relevant_lines (retrieve_memory_stats m raw),
      5 ≤ (pySplit l).length := by
    intro l hl
    have h5 := pySplit_length_of_dataMatch l (mem_filter_relevant _ l hl)
    omega
  have heq := renderDataRows_eq_map (maxNameLen m) _ hall
  refine ⟨heq, ?_⟩
  intro rows hrows
  rw [heq] at hrows
  rw [← Option.some.inj hrows]
  simp

/-- Claim C8: when the mapping built from the process listing is
empty, the run reports the informational no-VMs message and never
reaches the renderer: the outcome is the message and is not a table
for any rendered output. -/
theorem empty_mapping_skips_render (vmOut statsOut : List (List Char))
    (h : get_vm_mapping vmOut = []) :
    mainRun vmOut statsOut
      = RunOutcome.noVMs (toChars "No VMs are currently running on the ESXi host.") ∧
    ∀ out, mainRun vmOut statsOut ≠ RunOutcome.table out := by
  have hmain : mainRun vmOut statsOut
      = RunOutcome.noVMs (toChars "No VMs are currently running on the ESXi host.") := by
    unfold mainRun
    simp [h]
  exact ⟨hmain, fun out hout => by rw [hmain] at hout; cases hout⟩

/-- Witness for claim C8 at the empty listing. -/
theorem empty_mapping_skips_render_witness :
    get_vm_mapping [] = [] ∧
    (mainRun [] []
        = RunOutcome.noVMs (toChars "No VMs are currently running on the ESXi host.") ∧
     ∀ out, mainRun [] [] ≠ RunOutcome.table out) :=
  ⟨rfl, empty_mapping_skips_render [] [] rfl⟩

/-- Claim C9: on every execution in which the session is opened, the
trace ends with the session close, whatever the body did before
completing, returning early, or raising: the close event is present
and is the last event of the run. -/
theorem session_closed_on_every_exit (connected : Bool) (bodyEvents : List SessEvent)
    (h : SessEvent.opened ∈ sessionTrace connected bodyEvents) :
    SessEvent.closed ∈ sessionTrace connected bodyEvents ∧
    (sessionTrace connected bodyEvents).getLast? = some SessEvent.closed := by
  cases connected with
  | false => simp [sessionTrace] at h
  | true =>
    have htrace : sessionTrace true bodyEvents
        = (SessEvent.opened :: bodyEvents) ++ [SessEvent.closed] := by
      simp [sessionTrace]
    rw [htrace]
    constructor
    · exact List.mem_append_right _ (List.mem_singleton_self _)
    · exact List.getLast?_concat _

/-- Witness for claim C9 at a connected run with an empty body
trace. -/
theorem session_closed_on_every_exit_witness :
    SessEvent.opened ∈ sessionTrace true [] ∧
    (SessEvent.closed ∈ sessionTrace true [] ∧
     (sessionTrace true []).getLast? = some SessEvent.closed) :=
  ⟨by decide, session_closed_on_every_exit true [] (by decide)⟩

/-- Claim C10: every line kept by the stage-2 filter splits on
whitespace into exactly five tokens, so the five-placeholder format
string always receives five arguments and its application cannot
fail for any filtered line and any column width. -/
theorem filtered_line_five_tokens (stats : List (List Char)) (line : List Char)
    (h : line ∈ filter_relevant_lines stats) :
    (pySplit line).length = 5 ∧
    ∀ w, (formatLine w (pySplit line)).isSome = true := by
  have h5 : (pySplit line).length = 5 :=
    pySplit_length_of_dataMatch line (mem_filter_relevant stats line h)
  refine ⟨h5, ?_⟩
  intro w
  unfold formatLine
  rw [if_pos (by omega)]
  rfl

/-- Witness for claim C10 at a concrete filtered line. -/
theorem filtered_line_five_tokens_witness :
    toChars "vmA 1 2 3 4" ∈ filter_relevant_lines [toChars " vmA 1 2 3 4 "] ∧
    ((pySplit (toChars "vmA 1 2 3 4")).length = 5 ∧
     ∀ w, (formatLine w (pySplit (toChars "vmA 1 2 3 4"))).isSome = true) :=
  ⟨by decide, filtered_line_five_tokens [toChars " vmA 1 2 3 4 "]
    (toChars "vmA 1 2 3 4") (by decide)⟩
